import Mathlib

/-!
Verification of the resource-identity / region-handling core of ARCropolis
(`src/src/lib.rs`).  Paths are modelled as `List Char` (the code operates on
UTF-8 strings; byte indices returned by `find`/`rfind` always sit on the
matched ASCII character, so splitting at them coincides with splitting at the
corresponding character position).  A Rust panic (`unwrap` on `None`,
out-of-range `drain`/slice) is modelled by `Option.none` at the outermost
level of a function's result.
-/

set_option autoImplicit false

namespace Arcropolis

/-- Region enumeration.  The constructors are named after the fourteen
catalog tags of `REGIONS` (lib.rs lines 183-185), plus the `None` variant of
the external `smash_arc::Region` enum. -/
inductive Region where
  | none
  | jp_ja
  | us_en
  | us_fr
  | us_es
  | eu_en
  | eu_fr
  | eu_es
  | eu_de
  | eu_nl
  | eu_it
  | eu_ru
  | kr_ko
  | zh_cn
  | zh_tw
  deriving DecidableEq, Repr

/-- The fixed region catalog, transcribed from `REGIONS` in lib.rs
lines 183-185. -/
def REGIONS : List (List Char) :=
  [("jp_ja").data, ("us_en").data, ("us_fr").data, ("us_es").data,
   ("eu_en").data, ("eu_fr").data, ("eu_es").data, ("eu_de").data,
   ("eu_nl").data, ("eu_it").data, ("eu_ru").data, ("kr_ko").data,
   ("zh_cn").data, ("zh_tw").data]

/-- Association of each catalog tag with its typed region value. -/
def regionTable : List (List Char × Region) :=
  [(("jp_ja").data, Region.jp_ja), (("us_en").data, Region.us_en),
   (("us_fr").data, Region.us_fr), (("us_es").data, Region.us_es),
   (("eu_en").data, Region.eu_en), (("eu_fr").data, Region.eu_fr),
   (("eu_es").data, Region.eu_es), (("eu_de").data, Region.eu_de),
   (("eu_nl").data, Region.eu_nl), (("eu_it").data, Region.eu_it),
   (("eu_ru").data, Region.eu_ru), (("kr_ko").data, Region.kr_ko),
   (("zh_cn").data, Region.zh_cn), (("zh_tw").data, Region.zh_tw)]

/-- Modelled from the spec: `smash_arc::Region::from_str` lives in the
external `smash_arc` crate (out of scope per spec section 1); the spec's
region catalog (section 6) and the in-repo `REGIONS` constant pin it as exact
recognition of the fourteen tags.  A failed parse is `Option.none`. -/
def Region.from_str (s : List Char) : Option Region :=
  (regionTable.find? (fun e => decide (e.1 = s))).map Prod.snd

/-- Transcription of `get_region_from_suffix` (lib.rs lines 148-154): a
parse failure or a parse to `Region::None` both collapse to `None`. -/
def get_region_from_suffix (suffix : List Char) : Option Region :=
  match Region.from_str suffix with
  | Option.none => Option.none
  | Option.some r => if r = Region.none then Option.none else Option.some r

/-- Split a character list at every '/' (semantics of `str::split('/')`:
`""` gives `[""]`, separators at the ends give empty pieces). -/
def splitSlash : List Char → List (List Char)
  | [] => [[]]
  | c :: t =>
    if c = '/' then [] :: splitSlash t
    else
      match splitSlash t with
      | [] => [[c]]
      | h :: r => (c :: h) :: r

/-- Rust `Path::file_name` semantics on the Unix-style paths of the target
platform: the last path component after skipping empty and `.` components;
`None` when that component is `..` or when no component remains. -/
def fileName (p : List Char) : Option (List Char) :=
  match ((splitSlash p).filter (fun x => decide (x ≠ [] ∧ x ≠ ['.']))).getLast? with
  | Option.none => Option.none
  | Option.some l => if l = ['.', '.'] then Option.none else Option.some l

/-- Index of the last occurrence of `c`, as `str::rfind` returns it. -/
def rfindIdx (c : Char) : List Char → Option Nat
  | [] => Option.none
  | a :: t =>
    match rfindIdx c t with
    | Option.some i => Option.some (i + 1)
    | Option.none => if a = c then Option.some 0 else Option.none

/-- Index of the first occurrence of `c`, as `str::find` returns it. -/
def findIdxChar (c : Char) : List Char → Option Nat
  | [] => Option.none
  | a :: t => if a = c then Option.some 0 else (findIdxChar c t).map (fun i => i + 1)

/-- Rust `Path::extension` semantics: the part of the file name after its
last `.`, unless there is no `.` or the only `.` is the leading character. -/
def extension (p : List Char) : Option (List Char) :=
  match fileName p with
  | Option.none => Option.none
  | Option.some f =>
    match rfindIdx '.' f with
    | Option.none => Option.none
    | Option.some 0 => Option.none
    | Option.some i => Option.some (f.drop (i + 1))

/-- Transcription of `get_region_from_path` (lib.rs lines 156-167).  The
outer `Option.none` models the panic of `file_name().unwrap()` on a path
with no file-name component.  Note that the candidate handed to the suffix
resolver is everything after the first '+' of the file name, extension
included. -/
def get_region_from_path (p : List Char) : Option (Option Region) :=
  match fileName p with
  | Option.none => Option.none
  | Option.some filename =>
    match findIdxChar '+' filename with
    | Option.none => Option.some Option.none
    | Option.some i => Option.some (get_region_from_suffix (filename.drop (i + 1)))

/-- Transcription of `strip_region_from_path` (lib.rs lines 169-181).  The
outer `Option.none` models the two panics: `rfind('.').unwrap()` when a '+'
is present but no '.', and `String::drain(index..period)` when the last '+'
sits after the last '.'.  When the drain succeeds the drained span starts
with '+', so the suffix candidate is the span minus its first character. -/
def strip_region_from_path (p : List Char) : Option (List Char × Option Region) :=
  match rfindIdx '+' p with
  | Option.none => Option.some (p, Option.none)
  | Option.some idx =>
    match rfindIdx '.' p with
    | Option.none => Option.none
    | Option.some period =>
      if idx < period then
        Option.some (p.take idx ++ p.drop period,
          get_region_from_suffix (((p.take period).drop idx).drop 1))
      else Option.none

/-- ASCII lower-casing, the fragment of `str::to_lowercase` exercised by
the path strings of this core. -/
def lowercaseStr (s : List Char) : List Char := s.map Char.toLower

/-- Transcription of `.replace(';', ":")`. -/
def replaceSemi (s : List Char) : List Char :=
  s.map (fun c => if c = ';' then ':' else c)

/-- Transcription of `.replace(".mp4", ".webm")`: leftmost, non-overlapping
replacement of every occurrence. -/
def replaceMp4 : List Char → List Char
  | '.' :: 'm' :: 'p' :: '4' :: t => '.' :: 'w' :: 'e' :: 'b' :: 'm' :: replaceMp4 t
  | c :: t => c :: replaceMp4 t
  | [] => []

/-- Transcription of `str::trim_start_matches("0x")`: the prefix `0x` is
stripped repeatedly. -/
def trimStartMatches0x : List Char → List Char
  | [] => []
  | [c] => [c]
  | c1 :: c2 :: t => if c1 = '0' ∧ c2 = 'x' then trimStartMatches0x t else c1 :: c2 :: t

/-- Value of a hexadecimal digit character, `char::to_digit(16)` semantics. -/
def hexDigitVal? (c : Char) : Option Nat :=
  if 48 ≤ c.toNat ∧ c.toNat ≤ 57 then Option.some (c.toNat - 48)
  else if 97 ≤ c.toNat ∧ c.toNat ≤ 102 then Option.some (c.toNat - 87)
  else if 65 ≤ c.toNat ∧ c.toNat ≤ 70 then Option.some (c.toNat - 55)
  else Option.none

/-- A single leading '+' sign is accepted by `u64::from_str_radix`. -/
def stripLeadingPlus (s : List Char) : List Char :=
  match s with
  | [] => []
  | c :: t => if c = '+' then t else c :: t

/-- Accumulating hexadecimal parse of a digit string. -/
def parseHexAcc : Nat → List Char → Option Nat
  | a, [] => Option.some a
  | a, c :: t =>
    match hexDigitVal? c with
    | Option.some d => parseHexAcc (16 * a + d) t
    | Option.none => Option.none

/-- Transcription of `u64::from_str_radix(s, 16)`: an optional leading '+',
then at least one hexadecimal digit, and the value must fit in 64 bits. -/
def fromStrRadix16 (s : List Char) : Option Nat :=
  let digits := stripLeadingPlus s
  if digits = [] then Option.none
  else
    match parseHexAcc 0 digits with
    | Option.none => Option.none
    | Option.some v => if v < 18446744073709551616 then Option.some v else Option.none

/-- Error type of `smash_hash`, mirroring `InvalidOsStrError` (lib.rs
lines 76-83). -/
inductive InvalidOsStrError where
  | mk
  deriving DecidableEq, Repr

/-- The 64-bit resource identity, mirroring `smash_arc::Hash40`. -/
structure Hash40 where
  val : Nat
  deriving DecidableEq, Repr

deriving instance DecidableEq for Except

/-- One reflected CRC-32 bit step (polynomial 0xEDB88320). -/
def crcBitStep (r : Nat) : Nat :=
  if r % 2 = 1 then (r / 2) ^^^ 0xEDB88320 else r / 2

/-- Fold one byte into a CRC-32 state. -/
def crcByteStep (crc b : Nat) : Nat :=
  crcBitStep (crcBitStep (crcBitStep (crcBitStep
    (crcBitStep (crcBitStep (crcBitStep (crcBitStep (crc ^^^ b))))))))

/-- IEEE CRC-32 of a byte sequence. -/
def crc32 (bytes : List Nat) : Nat :=
  0xFFFFFFFF ^^^ bytes.foldl crcByteStep 0xFFFFFFFF

/-- UTF-8 encoding of one character. -/
def utf8Bytes (c : Char) : List Nat :=
  let n := c.toNat
  if n < 0x80 then [n]
  else if n < 0x800 then [0xC0 + n / 64, 0x80 + n % 64]
  else if n < 0x10000 then [0xE0 + n / 4096, 0x80 + (n / 64) % 64, 0x80 + n % 64]
  else [0xF0 + n / 262144, 0x80 + (n / 4096) % 64, 0x80 + (n / 64) % 64, 0x80 + n % 64]

/-- UTF-8 byte sequence of a character list. -/
def strBytes (s : List Char) : List Nat :=
  s.foldr (fun c acc => utf8Bytes c ++ acc) []

/-- Modelled from the spec: the host's fixed, published 64-bit hash
(`Hash40::from(&str)` of the external `smash_arc` crate, spec section 4.2):
byte length in the upper bits, CRC-32 of the bytes in the lower 32, with
`u64` wrap-around on the length shift. -/
def hash40Str (s : List Char) : Nat :=
  ((strBytes s).length % 4294967296) * 4294967296 + crc32 (strBytes s)

/-- The literal-hash escape hatch of `smash_hash` (lib.rs lines 103-119): a
path with no extension whose file name starts with `0x` and whose remainder
parses as a 64-bit hexadecimal integer. -/
def literalHash (p : List Char) : Option Nat :=
  if extension p = Option.none then
    (fileName p).bind (fun x =>
      if (("0x").data).isPrefixOf x then fromStrRadix16 (trimStartMatches0x x)
      else Option.none)
  else Option.none

/-- Transcription of `smash_hash` (lib.rs lines 102-133).  The outer
`Option.none` models a panic propagated from `strip_region_from_path`; the
`Except.error` branch of the original (a non-UTF-8 `OsStr`) is unreachable
in this text-string model. -/
def smash_hash (p : List Char) : Option (Except InvalidOsStrError Hash40) :=
  match literalHash p with
  | Option.some h => Option.some (Except.ok (Hash40.mk h))
  | Option.none =>
    let s := replaceMp4 (replaceSemi (lowercaseStr p))
    match strip_region_from_path s with
    | Option.none => Option.none
    | Option.some pr =>
      Option.some (Except.ok (Hash40.mk (hash40Str (pr.1.dropWhile (fun c => c = '/')))))

/-- Lower-case hexadecimal digit character for a value below 16. -/
def hexDigitChar : Nat → Char
  | 0 => '0'
  | 1 => '1'
  | 2 => '2'
  | 3 => '3'
  | 4 => '4'
  | 5 => '5'
  | 6 => '6'
  | 7 => '7'
  | 8 => '8'
  | 9 => '9'
  | 10 => 'a'
  | 11 => 'b'
  | 12 => 'c'
  | 13 => 'd'
  | 14 => 'e'
  | 15 => 'f'
  | _ => '0'

/-- Digit expansion used by `format!` with the `{:#x}` specifier: most
significant digit first, no leading zeros.  The first argument is recursion
fuel; any fuel above the value itself is sufficient. -/
def natToHexAux : Nat → Nat → List Char
  | 0, _ => []
  | _ + 1, 0 => []
  | fuel + 1, n + 1 => natToHexAux fuel ((n + 1) / 16) ++ [hexDigitChar ((n + 1) % 16)]

/-- Digits of `format!` with `{:x}`: natural width, lower case, and `0`
renders as `"0"`. -/
def natToHexLower (n : Nat) : List Char :=
  if n = 0 then ['0'] else natToHexAux (n + 1) n

/-- Transcription of `get_path_from_hash` (lib.rs lines 140-146).  The hash
dictionary `hashes::try_find` is an external collaborator (spec section 6);
it is modelled as an arbitrary read-only mapping passed as a parameter.  The
fallback is `format!` with `{:#x}`. -/
def get_path_from_hash (tryFind : Nat → Option (List Char)) (h : Hash40) : List Char :=
  match tryFind h.val with
  | Option.some s => s
  | Option.none => '0' :: 'x' :: natToHexLower h.val

/-- Total value of a hexadecimal digit character (0 for non-digits); used
only in claim-side statements. -/
def hexDigitNat (c : Char) : Nat := (hexDigitVal? c).getD 0

/-- Claim-side value of a most-significant-first hexadecimal digit string. -/
def hexVal (d : List Char) : Nat :=
  d.foldl (fun a c => 16 * a + hexDigitNat c) 0

/-- Claim-side normalization pipeline, written from the words of the claim:
lower-case the whole input, replace every ';' with ':', rewrite every
".mp4" to ".webm", strip the region suffix, then remove leading '/'
characters, in that order. -/
def claimNormalize (p : List Char) : Option (List Char) :=
  match strip_region_from_path (replaceMp4 (replaceSemi (lowercaseStr p))) with
  | Option.none => Option.none
  | Option.some pr => Option.some (pr.1.dropWhile (fun c => c = '/'))

/-- The sixteen lower-case hexadecimal digit characters. -/
def lowerHexDigits : List Char := ("0123456789abcdef").data

/-! ### Helper lemmas about the list machinery -/

theorem mem_getLast? {α : Type} : ∀ {l : List α} {a : α}, l.getLast? = Option.some a → a ∈ l
  | [], _, h => by simp at h
  | [x], a, h => by
      simp [List.getLast?] at h
      simp [h]
  | x :: y :: t, a, h => by
      rw [List.getLast?_cons_cons] at h
      exact List.mem_cons_of_mem x (mem_getLast? h)

theorem splitSlash_ne_nil : ∀ l : List Char, splitSlash l ≠ []
  | [] => by simp [splitSlash]
  | c :: t => by
      simp only [splitSlash]
      split
      · simp
      · split <;> simp

theorem mem_splitSlash : ∀ {l x : List Char} {c : Char}, x ∈ splitSlash l → c ∈ x → c ∈ l
  | [], x, c, hx, hc => by
      simp [splitSlash] at hx
      subst hx
      simp at hc
  | a :: t, x, c, hx, hc => by
      simp only [splitSlash] at hx
      split at hx
      · rcases List.mem_cons.mp hx with h | h
        · subst h; simp at hc
        · exact List.mem_cons_of_mem a (mem_splitSlash h hc)
      · rcases he : splitSlash t with _ | ⟨h0, r⟩
        · exact absurd he (splitSlash_ne_nil t)
        · rw [he] at hx
          have hh0 : h0 ∈ splitSlash t := by
            rw [he]; exact List.mem_cons_self h0 r
          rcases List.mem_cons.mp hx with h | h
          · subst h
            rcases List.mem_cons.mp hc with h | h
            · rw [h]; exact List.mem_cons_self a t
            · exact List.mem_cons_of_mem a (mem_splitSlash hh0 h)
          · have hxr : x ∈ splitSlash t := by
              rw [he]; exact List.mem_cons_of_mem h0 h
            exact List.mem_cons_of_mem a (mem_splitSlash hxr hc)

theorem splitSlash_no_slash : ∀ {l : List Char}, (∀ c ∈ l, c ≠ '/') → splitSlash l = [l]
  | [], _ => rfl
  | a :: t, h => by
      simp only [splitSlash]
      rw [if_neg (h a (List.mem_cons_self a t))]
      rw [splitSlash_no_slash (fun c hc => h c (List.mem_cons_of_mem a hc))]

theorem fileName_mem {p f : List Char} {c : Char} (hf : fileName p = Option.some f)
    (hc : c ∈ f) : c ∈ p := by
  unfold fileName at hf
  split at hf
  · exact absurd hf (by simp)
  · rename_i l hl
    split at hf
    · exact absurd hf (by simp)
    · cases hf
      exact mem_splitSlash (List.mem_of_mem_filter (mem_getLast? hl)) hc

theorem fileName_no_slash {p : List Char} (h0 : p ≠ []) (h1 : p ≠ ['.'])
    (h2 : p ≠ ['.', '.']) (h : ∀ c ∈ p, c ≠ '/') : fileName p = Option.some p := by
  unfold fileName
  rw [splitSlash_no_slash h]
  rw [List.filter_cons_of_pos (by simp [h0, h1])]
  simp [h2]

theorem rfind_not_mem {c : Char} : ∀ {l : List Char}, c ∉ l → rfindIdx c l = Option.none
  | [], _ => rfl
  | a :: t, h => by
      have ht := rfind_not_mem (l := t) (fun hm => h (List.mem_cons_of_mem a hm))
      have ha : a ≠ c := fun he => h (by rw [← he]; exact List.mem_cons_self a t)
      simp only [rfindIdx, ht]
      rw [if_neg ha]

theorem rfind_append_some {c : Char} {b : List Char} {i : Nat}
    (h : rfindIdx c b = Option.some i) :
    ∀ a : List Char, rfindIdx c (a ++ b) = Option.some (a.length + i)
  | [] => by simpa using h
  | x :: a => by
      have ih := rfind_append_some h a
      show rfindIdx c (x :: (a ++ b)) = Option.some ((x :: a).length + i)
      simp only [rfindIdx, ih]
      simp only [List.length_cons, Option.some.injEq]
      omega

theorem rfind_cons_self {c : Char} {t : List Char} (h : c ∉ t) :
    rfindIdx c (c :: t) = Option.some 0 := by
  simp only [rfindIdx, rfind_not_mem h]
  simp

theorem find_not_mem {c : Char} : ∀ {l : List Char}, c ∉ l → findIdxChar c l = Option.none
  | [], _ => rfl
  | a :: t, h => by
      have ha : a ≠ c := fun he => h (by rw [← he]; exact List.mem_cons_self a t)
      have ht := find_not_mem (l := t) (fun hm => h (List.mem_cons_of_mem a hm))
      simp only [findIdxChar, ht]
      rw [if_neg ha]
      rfl

theorem find_append_self {c : Char} {b : List Char} :
    ∀ {a : List Char}, c ∉ a → findIdxChar c (a ++ c :: b) = Option.some a.length
  | [], _ => by simp [findIdxChar]
  | x :: a, h => by
      have hx : x ≠ c := fun he => h (by rw [← he]; exact List.mem_cons_self x a)
      have ih := find_append_self (b := b) (a := a) (fun hm => h (List.mem_cons_of_mem x hm))
      show findIdxChar c (x :: (a ++ c :: b)) = Option.some (x :: a).length
      simp only [findIdxChar, ih]
      rw [if_neg hx]
      simp

theorem strip_shape (u v w : List Char) (hv : '+' ∉ v) (hw : '+' ∉ w) (hw2 : '.' ∉ w) :
    strip_region_from_path (u ++ '+' :: (v ++ '.' :: w)) =
      Option.some (u ++ '.' :: w, get_region_from_suffix v) := by
  have hnp : '+' ∉ v ++ '.' :: w := by
    intro hm
    rcases List.mem_append.mp hm with h | h
    · exact hv h
    · rcases List.mem_cons.mp h with h | h
      · exact absurd h (by decide)
      · exact hw h
  have hview : u ++ '+' :: (v ++ '.' :: w) = (u ++ '+' :: v) ++ '.' :: w := by
    simp
  have hplus : rfindIdx '+' ((u ++ '+' :: v) ++ '.' :: w) = Option.some u.length := by
    rw [← hview]
    have hs := rfind_append_some (rfind_cons_self hnp) u
    simpa using hs
  have hdot : rfindIdx '.' ((u ++ '+' :: v) ++ '.' :: w)
      = Option.some (u.length + v.length + 1) := by
    rw [rfind_append_some (rfind_cons_self hw2) (u ++ '+' :: v)]
    simp only [Option.some.injEq, List.length_append, List.length_cons]
    omega
  rw [hview]
  simp only [strip_region_from_path, hplus, hdot]
  rw [if_pos (by omega : u.length < u.length + v.length + 1)]
  have h1 : ((u ++ '+' :: v) ++ '.' :: w).take u.length = u := by
    rw [List.append_assoc]
    exact List.take_left' rfl
  have h2 : ((u ++ '+' :: v) ++ '.' :: w).drop (u.length + v.length + 1) = '.' :: w :=
    List.drop_left' (by simp only [List.length_append, List.length_cons]; omega)
  have h3 : ((u ++ '+' :: v) ++ '.' :: w).take (u.length + v.length + 1) = u ++ '+' :: v :=
    List.take_left' (by simp only [List.length_append, List.length_cons]; omega)
  have h4 : (u ++ '+' :: v).drop u.length = '+' :: v := List.drop_left' rfl
  rw [h1, h2, h3, h4]
  simp

/-! ### Helper lemmas about hexadecimal digits and parsing -/

theorem hexDigit_ranges {c : Char} (h : (hexDigitVal? c).isSome = true) :
    (48 ≤ c.toNat ∧ c.toNat ≤ 57) ∨ (97 ≤ c.toNat ∧ c.toNat ≤ 102) ∨
      (65 ≤ c.toNat ∧ c.toNat ≤ 70) := by
  unfold hexDigitVal? at h
  split at h
  case isTrue hc => exact Or.inl hc
  case isFalse =>
    split at h
    case isTrue hc => exact Or.inr (Or.inl hc)
    case isFalse =>
      split at h
      case isTrue hc => exact Or.inr (Or.inr hc)
      case isFalse => simp at h

theorem hexDigitNat_lt (c : Char) : hexDigitNat c < 16 := by
  unfold hexDigitNat hexDigitVal?
  split
  case isTrue hc => simp only [Option.getD_some]; omega
  case isFalse =>
    split
    case isTrue hc => simp only [Option.getD_some]; omega
    case isFalse =>
      split
      case isTrue hc => simp only [Option.getD_some]; omega
      case isFalse => simp only [Option.getD_none]; omega

theorem hex_ne {c : Char} (h : (hexDigitVal? c).isSome = true) :
    c ≠ '/' ∧ c ≠ '.' ∧ c ≠ 'x' ∧ c ≠ '+' := by
  have hr := hexDigit_ranges h
  refine ⟨?_, ?_, ?_, ?_⟩ <;> intro he <;> subst he <;> revert hr <;> decide

theorem parseHexAcc_eq : ∀ (d : List Char) (a : Nat),
    (∀ c ∈ d, (hexDigitVal? c).isSome = true) →
    parseHexAcc a d = Option.some (d.foldl (fun x c => 16 * x + hexDigitNat c) a)
  | [], _, _ => rfl
  | c :: t, a, h => by
      have hc := h c (List.mem_cons_self c t)
      rcases hv : hexDigitVal? c with _ | d0
      · rw [hv] at hc; simp at hc
      · have hd : hexDigitNat c = d0 := by unfold hexDigitNat; rw [hv]; rfl
        simp only [parseHexAcc, hv]
        rw [parseHexAcc_eq t (16 * a + d0) (fun x hx => h x (List.mem_cons_of_mem c hx))]
        simp only [List.foldl_cons]
        rw [hd]

theorem foldl_hex_lt : ∀ (d : List Char) (a : Nat),
    d.foldl (fun x c => 16 * x + hexDigitNat c) a < (a + 1) * 16 ^ d.length
  | [], a => by simp
  | c :: t, a => by
      have ih := foldl_hex_lt t (16 * a + hexDigitNat c)
      have hd := hexDigitNat_lt c
      simp only [List.foldl_cons, List.length_cons]
      refine lt_of_lt_of_le ih ?_
      have hle : 16 * a + hexDigitNat c + 1 ≤ 16 * (a + 1) := by omega
      calc (16 * a + hexDigitNat c + 1) * 16 ^ t.length
          ≤ 16 * (a + 1) * 16 ^ t.length := Nat.mul_le_mul_right _ hle
        _ = (a + 1) * 16 ^ (t.length + 1) := by ring

theorem trim_hex : ∀ {d : List Char}, (∀ c ∈ d, (hexDigitVal? c).isSome = true) →
    trimStartMatches0x d = d
  | [], _ => rfl
  | [_], _ => rfl
  | c1 :: c2 :: t, h => by
      have h2 := h c2 (List.mem_cons_of_mem c1 (List.mem_cons_self c2 t))
      have hne : ¬(c1 = '0' ∧ c2 = 'x') := by
        rintro ⟨-, rfl⟩
        exact absurd h2 (by decide)
      simp only [trimStartMatches0x]
      rw [if_neg hne]

/-! ### Helper lemmas about the hexadecimal rendering of `format!` -/

theorem hexDigitNat_hexDigitChar : ∀ m : Nat, m < 16 → hexDigitNat (hexDigitChar m) = m := by
  intro m h
  interval_cases m <;> decide

theorem hexDigitChar_mem (m : Nat) : hexDigitChar m ∈ lowerHexDigits := by
  unfold hexDigitChar
  split <;> decide

theorem hexDigitChar_ne_zero : ∀ m : Nat, 0 < m → m < 16 → hexDigitChar m ≠ '0' := by
  intro m h1 h2
  interval_cases m <;> decide

theorem hexVal_append_digit (l : List Char) (c : Char) :
    hexVal (l ++ [c]) = 16 * hexVal l + hexDigitNat c := by
  unfold hexVal
  rw [List.foldl_append]
  rfl

theorem natToHexAux_zero : ∀ fuel, natToHexAux fuel 0 = []
  | 0 => rfl
  | _ + 1 => rfl

theorem hexVal_natToHexAux : ∀ (fuel n : Nat), n < fuel → hexVal (natToHexAux fuel n) = n
  | 0, _, h => absurd h (by omega)
  | _ + 1, 0, _ => by simp [natToHexAux, hexVal]
  | fuel + 1, n + 1, h => by
      have hdiv : (n + 1) / 16 < fuel := by
        have := Nat.div_lt_self (n := n + 1) (by omega) (by omega : 1 < 16)
        omega
      simp only [natToHexAux]
      rw [hexVal_append_digit, hexVal_natToHexAux fuel ((n + 1) / 16) hdiv]
      rw [hexDigitNat_hexDigitChar _ (Nat.mod_lt _ (by omega))]
      omega

theorem mem_natToHexAux : ∀ (fuel n : Nat) (c : Char), c ∈ natToHexAux fuel n → c ∈ lowerHexDigits
  | 0, _, _, h => absurd h (by simp [natToHexAux])
  | _ + 1, 0, _, h => absurd h (by simp [natToHexAux])
  | fuel + 1, n + 1, c, h => by
      simp only [natToHexAux] at h
      rcases List.mem_append.mp h with h | h
      · exact mem_natToHexAux fuel _ c h
      · rcases List.mem_cons.mp h with h | h
        · rw [h]; exact hexDigitChar_mem _
        · simp at h

theorem natToHexAux_ne_nil : ∀ (fuel n : Nat), 0 < n → n < fuel → natToHexAux fuel n ≠ []
  | 0, _, _, hf => absurd hf (by omega)
  | _ + 1, 0, h0, _ => absurd h0 (by omega)
  | _ + 1, _ + 1, _, _ => by
      simp only [natToHexAux]
      simp

theorem natToHexAux_head : ∀ (fuel n : Nat), 0 < n → n < fuel →
    (natToHexAux fuel n).head? ≠ Option.some '0'
  | 0, _, _, hf => absurd hf (by omega)
  | _ + 1, 0, h0, _ => absurd h0 (by omega)
  | fuel + 1, n + 1, _, hf => by
      simp only [natToHexAux]
      rcases Nat.eq_zero_or_pos ((n + 1) / 16) with hz | hp
      · rw [hz, natToHexAux_zero]
        simp only [List.nil_append, List.head?_cons]
        have h16 : n + 1 < 16 := by
          by_contra hge
          push_neg at hge
          have := (Nat.one_le_div_iff (by omega : 0 < 16)).mpr hge
          omega
        rw [Nat.mod_eq_of_lt h16]
        have hr := hexDigitChar_ne_zero (n + 1) (by omega) h16
        intro hcon
        exact hr (Option.some.inj hcon)
      · have hdivf : (n + 1) / 16 < fuel := by
          have := Nat.div_lt_self (n := n + 1) (by omega) (by omega : 1 < 16)
          omega
        have hne := natToHexAux_ne_nil fuel _ hp hdivf
        have ihead := natToHexAux_head fuel _ hp hdivf
        rw [List.head?_append]
        rcases hh : (natToHexAux fuel ((n + 1) / 16)).head? with _ | ch
        · exact absurd (List.head?_eq_none_iff.mp hh) hne
        · rw [hh] at ihead
          simp only [Option.or]
          exact ihead

/-! ### Helper lemmas about the region table -/

theorem regionTable_fst : regionTable.map Prod.fst = REGIONS := by decide

theorem regionTable_no_none : ∀ e ∈ regionTable, e.2 ≠ Region.none := by decide

/-! ### Claim theorems -/

/-- C1, counterexample: the claim states that a path whose '+suffix'
candidate is not a catalog tag is returned unchanged and that stripping
never removes text of a directory component.  On "a+b/c.txt" the last '+'
sits in a directory component and the candidate "b/c" is not a catalog tag,
yet `strip_region_from_path` removes the span "+b/c" (directory separator
included) and returns "a.txt". -/
theorem c1_counterexample :
    strip_region_from_path (("a+b/c.txt").data) =
        Option.some (("a.txt").data, Option.none) ∧
      ("a.txt").data ≠ ("a+b/c.txt").data := by
  decide

/-- C1, amended: whenever the path contains a '+' whose last occurrence
precedes the last '.', `strip_region_from_path` removes the span between
them even when the candidate suffix is not a catalog tag (the region
reported is then `None`); the span is located in the raw path string, so it
may cover directory text. -/
theorem c1_amended (u v w : List Char) (hv : '+' ∉ v) (hw : '+' ∉ w) (hw2 : '.' ∉ w)
    (hs : get_region_from_suffix v = Option.none) :
    strip_region_from_path (u ++ '+' :: (v ++ '.' :: w)) =
      Option.some (u ++ '.' :: w, Option.none) := by
  rw [strip_shape u v w hv hw hw2, hs]

/-- C1, witness for the amended statement at the spec's own example of an
unrecognized suffix. -/
theorem c1_amended_witness :
    strip_region_from_path (("dialogue+zz_zz.nus3audio").data) =
      Option.some (("dialogue.nus3audio").data, Option.none) := by
  have h := c1_amended (("dialogue").data) (("zz_zz").data) (("nus3audio").data)
    (by decide) (by decide) (by decide) (by decide)
  revert h
  decide

/-- C2: the claim states that `smash_hash`, `strip_region_from_path` and
`get_region_from_path` return normally on every input path, including paths
with a '+' but no '.', and paths with no filename component.  The code
panics on all the inputs below (`Option.none` models the panic):
`strip_region_from_path` hits `rfind('.').unwrap()` on "dialogue+us_en" and
the out-of-order `drain(3..1)` on "a.b+c" (last '+' after the last '.'),
`get_region_from_path` hits `file_name().unwrap()` on "/", and `smash_hash`
propagates the strip panic on "a+b". -/
theorem c2_panic_evaluation :
    strip_region_from_path (("dialogue+us_en").data) = Option.none ∧
      strip_region_from_path (("a.b+c").data) = Option.none ∧
      get_region_from_path (("/").data) = Option.none ∧
      smash_hash (("a+b").data) = Option.none := by
  decide

/-- C6: `get_region_from_suffix` returns a region exactly for the fourteen
catalog tags of `REGIONS`; every suffix outside the catalog yields `None`,
indistinguishable from an absent region. -/
theorem c6_region_catalog (s : List Char) :
    (∃ r, get_region_from_suffix s = Option.some r) ↔ s ∈ REGIONS := by
  constructor
  · rintro ⟨r, hr⟩
    unfold get_region_from_suffix at hr
    rcases hf : Region.from_str s with _ | r0
    · rw [hf] at hr; simp at hr
    · unfold Region.from_str at hf
      rcases Option.map_eq_some'.mp hf with ⟨e, he, hsnd⟩
      have hmem := List.mem_of_find?_eq_some he
      have hpred := List.find?_some he
      have hfst : e.1 = s := of_decide_eq_true hpred
      rw [← hfst, ← regionTable_fst]
      exact List.mem_map.mpr ⟨e, hmem, rfl⟩
  · intro hs
    rw [← regionTable_fst] at hs
    rcases List.mem_map.mp hs with ⟨e, he, hfst⟩
    have hsome : (regionTable.find? (fun x => decide (x.1 = s))).isSome = true :=
      List.find?_isSome.mpr ⟨e, he, decide_eq_true hfst⟩
    rcases ho : regionTable.find? (fun x => decide (x.1 = s)) with _ | e'
    · rw [ho] at hsome; simp at hsome
    · have hne : e'.2 ≠ Region.none := regionTable_no_none e' (List.mem_of_find?_eq_some ho)
      refine ⟨e'.2, ?_⟩
      unfold get_region_from_suffix Region.from_str
      rw [ho]
      simp [hne]

/-- C7, counterexample: the claim quantifies over every path carrying a
valid region suffix immediately before the extension.  When the extension
itself contains a '+', as in "v+us_en.e+q", the last '+' of the whole path
sits inside the extension, `rfind('+')` lands after `rfind('.')`, and the
`drain` call panics (modelled by `Option.none`) instead of returning the
stripped path with `us_en`. -/
theorem c7_counterexample :
    strip_region_from_path (("v+us_en.e+q").data) = Option.none := by
  decide

/-- C7, amended: for every path of the shape `stem+tag.ext` whose tag is a
catalog tag and whose (final) extension contains no '.' and no '+',
`strip_region_from_path` returns the path with the suffix removed and the
extension intact, together with the parsed region. -/
theorem c7_amended (u tag ext2 : List Char) (ht : tag ∈ REGIONS)
    (h1 : '+' ∉ ext2) (h2 : '.' ∉ ext2) :
    strip_region_from_path (u ++ '+' :: (tag ++ '.' :: ext2)) =
        Option.some (u ++ '.' :: ext2, Region.from_str tag) ∧
      Region.from_str tag ≠ Option.none := by
  have key : get_region_from_suffix tag = Region.from_str tag ∧
      Region.from_str tag ≠ Option.none ∧ '+' ∉ tag := by
    simp only [REGIONS, List.mem_cons, List.not_mem_nil, or_false] at ht
    rcases ht with rfl | rfl | rfl | rfl | rfl | rfl | rfl | rfl | rfl | rfl | rfl | rfl | rfl | rfl <;>
      exact ⟨by decide, by decide, by decide⟩
  refine ⟨?_, key.2.1⟩
  rw [strip_shape u tag ext2 key.2.2 h1 h2, key.1]

/-- C7, witness for the amended statement at the spec's end-to-end
scenario. -/
theorem c7_amended_witness :
    strip_region_from_path (("stream:/voice/dialogue+us_en.nus3audio").data) =
      Option.some (("stream:/voice/dialogue.nus3audio").data, Option.some Region.us_en) := by
  have h := (c7_amended (("stream:/voice/dialogue").data) (("us_en").data)
    (("nus3audio").data) (by decide) (by decide) (by decide)).1
  revert h
  decide

/-- C10, counterexample: on "dialogue+us_en.nus3audio" the two public
region accessors disagree: `get_region_from_path` hands "us_en.nus3audio"
(first '+' of the file name, extension included) to the resolver and gets
`None`, while `strip_region_from_path` hands "us_en" (last '+' up to last
'.') and gets `us_en`. -/
theorem c10_counterexample :
    get_region_from_path (("dialogue+us_en.nus3audio").data) ≠
      (strip_region_from_path (("dialogue+us_en.nus3audio").data)).map Prod.snd := by
  decide

/-- C10, amended: the two accessors agree on every path that has a
file-name component and contains no '+' anywhere: both report that no
region is present (and the stripped path is the input itself). -/
theorem c10_amended (p f : List Char) (hf : fileName p = Option.some f) (hp : '+' ∉ p) :
    get_region_from_path p = Option.some Option.none ∧
      strip_region_from_path p = Option.some (p, Option.none) := by
  constructor
  · have hfp : '+' ∉ f := fun hm => hp (fileName_mem hf hm)
    simp only [get_region_from_path, hf, find_not_mem hfp]
  · simp only [strip_region_from_path, rfind_not_mem hp]

/-- C10, witness for the amended statement. -/
theorem c10_amended_witness :
    get_region_from_path (("a/b.txt").data) = Option.some Option.none ∧
      strip_region_from_path (("a/b.txt").data) =
        Option.some ((("a/b.txt").data), Option.none) := by
  have h := c10_amended (("a/b.txt").data) (("b.txt").data) (by decide) (by decide)
  revert h
  decide

/-- C5, counterexample: the claim states that a filename carrying '+'
followed by a catalog tag before the extension yields that region.  On
"dialogue+us_en.nus3audio" the candidate handed to the resolver is
"us_en.nus3audio" (the extension is not removed), so the function returns
no region. -/
theorem c5_counterexample :
    get_region_from_path (("dialogue+us_en.nus3audio").data) =
      Option.some Option.none := by
  decide

/-- C5, amended: `get_region_from_path` hands everything after the first
'+' of the file name — extension included — to the suffix resolver without
normalization, so it reports a region exactly when that whole remainder is
a catalog tag; a filename without '+' reports no region. -/
theorem c5_amended :
    (∀ p pre tag : List Char, fileName p = Option.some (pre ++ '+' :: tag) → '+' ∉ pre →
        get_region_from_path p = Option.some (get_region_from_suffix tag)) ∧
    (∀ p f : List Char, fileName p = Option.some f → '+' ∉ f →
        get_region_from_path p = Option.some Option.none) := by
  constructor
  · intro p pre tag hf hp
    have hdrop : (pre ++ '+' :: tag).drop (pre.length + 1) = tag := by
      rw [← List.drop_drop 1 pre.length, List.drop_left]
      simp
    simp only [get_region_from_path, hf, find_append_self hp, hdrop]
  · intro p f hf hp
    simp only [get_region_from_path, hf, find_not_mem hp]

/-- C5, witness for the amended statement: without an extension after the
tag the region is resolved. -/
theorem c5_amended_witness :
    get_region_from_path (("dialogue+us_en").data) =
      Option.some (Option.some Region.us_en) := by
  have h := c5_amended.1 (("dialogue+us_en").data) (("dialogue").data) (("us_en").data)
    (by decide) (by decide)
  revert h
  decide

/-- C4: outside the literal-hash escape hatch, `smash_hash` hashes exactly
the string obtained by lower-casing the input, replacing ';' by ':',
rewriting ".mp4" to ".webm" anywhere, stripping the region suffix, and
removing leading '/' characters, in that order (`claimNormalize` is that
pipeline, written from the claim; a panic in the stripping step propagates
on both sides). -/
theorem c4_normalization_order (p : List Char) (h : literalHash p = Option.none) :
    smash_hash p =
      (claimNormalize p).map (fun s => Except.ok (Hash40.mk (hash40Str s))) := by
  simp only [smash_hash, claimNormalize, h]
  cases hs : strip_region_from_path (replaceMp4 (replaceSemi (lowercaseStr p))) with
  | none => rfl
  | some pr => rfl

/-- C4, witness at a concrete non-literal path. -/
theorem c4_normalization_order_witness :
    smash_hash (("a.b").data) =
      (claimNormalize (("a.b").data)).map
        (fun s => Except.ok (Hash40.mk (hash40Str s))) := by
  have h := c4_normalization_order (("a.b").data) (by decide)
  revert h
  decide

/-- C3: for every filename "0x" followed by one to sixteen hexadecimal
digits (which necessarily carries no extension), `smash_hash` returns `Ok`
of exactly the parsed 64-bit value, bypassing the normal hash
computation. -/
theorem c3_literal_hash (digits : List Char) (h0 : digits ≠ [])
    (h16 : digits.length ≤ 16) (hhex : ∀ c ∈ digits, (hexDigitVal? c).isSome = true) :
    smash_hash ('0' :: 'x' :: digits) =
      Option.some (Except.ok (Hash40.mk (hexVal digits))) := by
  have hslash : ∀ c ∈ '0' :: 'x' :: digits, c ≠ '/' := by
    intro c hc
    rcases List.mem_cons.mp hc with rfl | hc
    · decide
    rcases List.mem_cons.mp hc with rfl | hc
    · decide
    exact (hex_ne (hhex c hc)).1
  have hdot : '.' ∉ '0' :: 'x' :: digits := by
    intro hm
    rcases List.mem_cons.mp hm with h | hm
    · exact absurd h (by decide)
    rcases List.mem_cons.mp hm with h | hm
    · exact absurd h (by decide)
    · exact absurd rfl (hex_ne (hhex _ hm)).2.1
  have hfn : fileName ('0' :: 'x' :: digits) = Option.some ('0' :: 'x' :: digits) :=
    fileName_no_slash (by simp) (by simp) (by simp) hslash
  have hext : extension ('0' :: 'x' :: digits) = Option.none := by
    simp only [extension, hfn, rfind_not_mem hdot]
  have hpre : (("0x").data).isPrefixOf ('0' :: 'x' :: digits) = true := by
    cases digits with
    | nil => rfl
    | cons c t => rfl
  have htrim : trimStartMatches0x ('0' :: 'x' :: digits) = digits := by
    have h1 : trimStartMatches0x ('0' :: 'x' :: digits) = trimStartMatches0x digits := rfl
    rw [h1]
    exact trim_hex hhex
  have hplus_head : stripLeadingPlus digits = digits := by
    cases digits with
    | nil => rfl
    | cons c t =>
      have hc := hhex c (List.mem_cons_self c t)
      show (if c = '+' then t else c :: t) = c :: t
      rw [if_neg (hex_ne hc).2.2.2]
  have hparse : parseHexAcc 0 digits = Option.some (hexVal digits) :=
    parseHexAcc_eq digits 0 hhex
  have hlt : hexVal digits < 18446744073709551616 := by
    unfold hexVal
    calc digits.foldl (fun x c => 16 * x + hexDigitNat c) 0
        < (0 + 1) * 16 ^ digits.length := foldl_hex_lt digits 0
      _ = 16 ^ digits.length := by ring
      _ ≤ 16 ^ 16 := Nat.pow_le_pow_right (by omega) h16
      _ = 18446744073709551616 := by norm_num
  have hlit : literalHash ('0' :: 'x' :: digits) = Option.some (hexVal digits) := by
    unfold literalHash
    rw [hext, if_pos rfl, hfn, Option.some_bind, if_pos hpre, htrim]
    unfold fromStrRadix16
    rw [hplus_head, if_neg h0, hparse]
    simp [hlt]
  simp only [smash_hash, hlit]

/-- C3, witness at the literal filename "0x1f". -/
theorem c3_literal_hash_witness :
    smash_hash (("0x1f").data) = Option.some (Except.ok (Hash40.mk 31)) := by
  have h := c3_literal_hash (("1f").data) (by decide) (by decide) (by decide)
  revert h
  decide

/-- C9: `get_path_from_hash` returns the dictionary entry when the identity
is known; otherwise it falls back to "0x" followed by the lower-case
hexadecimal digits of the identity at natural width (the digit string
re-evaluates to the identity, consists of lower-case hexadecimal digit
characters only, and carries no leading zero unless the identity is 0). -/
theorem c9_get_path_from_hash (tryFind : Nat → Option (List Char)) (h : Hash40) :
    (∀ s, tryFind h.val = Option.some s → get_path_from_hash tryFind h = s) ∧
    (tryFind h.val = Option.none →
      get_path_from_hash tryFind h = '0' :: 'x' :: natToHexLower h.val ∧
      hexVal (natToHexLower h.val) = h.val ∧
      (∀ c ∈ natToHexLower h.val, c ∈ lowerHexDigits) ∧
      (h.val ≠ 0 → (natToHexLower h.val).head? ≠ Option.some '0')) := by
  constructor
  · intro s hs
    unfold get_path_from_hash
    rw [hs]
  · intro hn
    refine ⟨?_, ?_, ?_, ?_⟩
    · unfold get_path_from_hash
      rw [hn]
    · unfold natToHexLower
      rcases Nat.eq_zero_or_pos h.val with hz | hp
      · rw [hz]
        decide
      · rw [if_neg (by omega)]
        exact hexVal_natToHexAux (h.val + 1) h.val (by omega)
    · intro c hc
      unfold natToHexLower at hc
      rcases Nat.eq_zero_or_pos h.val with hz | hp
      · rw [hz] at hc
        simp at hc
        rw [hc]
        decide
      · rw [if_neg (by omega)] at hc
        exact mem_natToHexAux _ _ _ hc
    · intro h0
      unfold natToHexLower
      rw [if_neg h0]
      exact natToHexAux_head _ _ (by omega) (by omega)

/-- C9, witness: an unknown identity is rendered as a hexadecimal
literal. -/
theorem c9_get_path_from_hash_witness :
    get_path_from_hash (fun _ => Option.none) (Hash40.mk 255) = ("0xff").data := by
  have h := ((c9_get_path_from_hash (fun _ => Option.none) (Hash40.mk 255)).2 rfl).1
  revert h
  decide

end Arcropolis
